import Mathlib

/-!
# A shallow embedding of `qsub.py`

`qsub.py` exposes one function, `qsub(command, pbs_array_data, **kwargs)`,
which submits a PBS array job: it resolves an output `path`, creates the
`<path>job` output directory when absent, and then either runs every
argument tuple locally in order (`local=True`) or shuffles the tuples,
splits them into chunks of at most 1000, merges a length-1 final chunk
into its predecessor, and issues one `qsub` scheduler call per chunk.

The embedding below models Python strings as lists of characters, the
filesystem as a list of (name, isDirectory) entries, the process-global
random shuffle as an explicit `shuffled` argument (theorems hypothesise
that it is a permutation of the input), and the observable behaviour of
one call to `qsub` as the list of external calls it performs together
with the Python exception it raises, if any.
-/

namespace QsubPy

/-- A Python string, as a sequence of characters. -/
abbrev PyStr := List Char

/-- `os.sep` on the POSIX systems the tool targets. -/
def osSep : Char := '/'

/-- A scalar member of an argument tuple: Python strings and integers both
occur in `pbs_array_data` tuples and are rendered with `str(..)`. -/
inductive Val where
  | s (v : PyStr)
  | i (n : Int)
deriving DecidableEq, Repr

/-- Python `str(..)` on a tuple member. -/
def Val.str : Val → PyStr
  | .s v => v
  | .i n => (toString n).data

/-- An argument tuple: one element of `pbs_array_data`. -/
abbrev ArgTuple := List Val

/-- The keyword arguments of `qsub` that determine which external calls are
made: `path`, `local` and `cd` (lines 72-76, 79 and 83/110 of `qsub.py`).
The pure resource options (`N`, `P`, `q`, `select`, `ncpus`, `mem`,
`walltime`) only alter directive text inside the generated script and are
not tracked. -/
structure Kwargs where
  path : Option PyStr := none
  localMode : Bool := false
  cd : Option PyStr := none

/-- The Python exceptions relevant to this code.  `validationError` is
modelled from the spec's words (section 7 asks that a single-tuple input be
rejected "with a clear validation error"); no code path of `qsub.py`
produces it. -/
inductive PyErr where
  | indexError
  | fileExistsError
  | validationError
deriving DecidableEq, Repr

/-- Line 74: `if path and path[-1] != os.sep: path += os.sep`. -/
def ensureTrailingSep (p : PyStr) : PyStr :=
  if p ≠ [] ∧ p.getLast? ≠ some osSep then p ++ [osSep] else p

/-- Lines 72-76: take `path` from the keyword arguments and ensure a
trailing separator, or default to the command with spaces replaced by
underscores plus a separator. -/
def resolvePath (command : PyStr) (kw : Kwargs) : PyStr :=
  match kw.path with
  | some p => ensureTrailingSep p
  | none => command.map (fun c => if c = ' ' then '_' else c) ++ [osSep]

/-- A filesystem snapshot: existing entries with their is-directory flag. -/
abbrev Fs := List (PyStr × Bool)

/-- `os.path.isdir`: the entry exists and is a directory. -/
def isdir (fs : Fs) (d : PyStr) : Bool := decide ((d, true) ∈ fs)

/-- `os.path.exists`: some entry with this name exists. -/
def pathExists (fs : Fs) (d : PyStr) : Bool := fs.any (fun e => decide (e.1 = d))

/-- `os.makedirs`: raises `FileExistsError` when the target already exists. -/
def makedirs (fs : Fs) (d : PyStr) : Except PyErr Unit :=
  if pathExists fs d then .error .fileExistsError else .ok ()

/-- One observable external action of `qsub`:
directory creation (line 78), a local-mode `os.system` subjob invocation
(lines 80-86, recorded as the words of the command line
`{command} {str_pbs_array_args} {path}`), or one scheduler submission per
chunk (line 114), recorded with its `#PBS -J {lo}-{hi}` array range
(line 108) and the chunk embedded in the script (line 109). -/
inductive Call where
  | mkdir (d : PyStr)
  | run (words : List PyStr)
  | submit (lo hi : Nat) (chunk : List ArgTuple)
deriving DecidableEq, Repr

/-- Line 78: `if not os.path.isdir(path+'job'): os.makedirs(path+'job')`.
Returns the directory-creation calls performed, or the raised error. -/
def createJobDir (fs : Fs) (jobdir : PyStr) : Except PyErr (List Call) :=
  if isdir fs jobdir then .ok []
  else
    match makedirs fs jobdir with
    | .error e => .error e
    | .ok _ => .ok [.mkdir jobdir]

/-- The words of one subjob command line, `{command} {str_args} {path}`
(line 85 locally, line 112 inside the generated script): the command,
then each tuple member passed through `str(..)`, then the output path. -/
def subjobWords (command : PyStr) (path : PyStr) (t : ArgTuple) : List PyStr :=
  command :: t.map Val.str ++ [path]

/-- Lines 93-94:
`[pbs_array_data[x:x+1000] for x in range(0, len(pbs_array_data), 1000)]`,
the split of the shuffled data into slices of at most 1000 tuples. -/
def chunks1000 : List α → List (List α)
  | [] => []
  | a :: l => ((a :: l).take 1000) :: chunks1000 ((a :: l).drop 1000)
termination_by l => l.length
decreasing_by simp [List.length_drop]; omega

/-- Lines 95-96: if the final chunk has length 1, pop the last element of
the second-to-last chunk and insert it at the front of the final chunk:
`pbs_array_data_chunks[-1].insert(0, pbs_array_data_chunks[-2].pop())`.
Python raises `IndexError` when an index is out of range: `[-1]` on an
empty chunk list, `[-2]` when only one chunk exists (modelled as
`cs.dropLast.getLast`), and `pop()` on an empty predecessor. -/
def mergeLastChunkRev : List (List α) → Except PyErr (List (List α))
  | [] => .error .indexError
  | [c] => if c.length = 1 then .error .indexError else .ok [c]
  | c :: p :: rest =>
    if c.length = 1 then
      match p.reverse with
      | [] => .error .indexError
      | x :: p' => .ok ((x :: c) :: p'.reverse :: rest)
    else .ok (c :: p :: rest)

/-- Lines 95-96 again, on the chunk list in its given order: the chunk list
is examined from its end (`cs.reverse`), matching Python's negative indices
`[-1]` and `[-2]`, and the result is put back in order. -/
def mergeLastChunk (cs : List (List α)) : Except PyErr (List (List α)) :=
  (mergeLastChunkRev cs.reverse).map List.reverse

/-- Python list subscripting with an `Int` index: negative indices count
from the end; an out-of-range index yields `none` (`IndexError`). -/
def pyGet (l : List α) (k : Int) : Option α :=
  if 0 ≤ k then l.get? k.toNat
  else if 0 ≤ (l.length : Int) + k then l.get? ((l.length : Int) + k).toNat
  else none

/-- Line 109: the generated script of chunk `i` maps the runtime index `j`
(`$PBS_ARRAY_INDEX`) to a tuple via `{chunk}[int(sys.argv[1])-{1000*i}]`. -/
def scriptLookup (i : Nat) (chunk : List ArgTuple) (j : Nat) : Option ArgTuple :=
  pyGet chunk ((j : Int) - 1000 * i)

/-- Lines 109-112: the command line the chunk-`i` script runs at runtime
index `j`: `{command} ${args[*]} {path}` where `args` is the tuple found by
`scriptLookup`, stringified. -/
def scriptRun (command path : PyStr) (i : Nat) (chunk : List ArgTuple) (j : Nat) :
    Option (List PyStr) :=
  (scriptLookup i chunk j).map (subjobWords command path)

/-- The remainder of `qsub` once the output directory step produced the
calls `mk`: the local branch (lines 79-87) runs every tuple of the input
in order; the remote branch (lines 88-115) chunks the shuffled data,
merges a length-1 final chunk and issues one submission per chunk, whose
`-J` range is `{1000*i}-{1000*i + len(chunk)-1}` (line 108). -/
def qsubAfterDir (command : PyStr) (pbs_array_data : List ArgTuple) (kw : Kwargs)
    (path : PyStr) (mk : List Call) (shuffled : List ArgTuple) :
    List Call × Option PyErr :=
  if kw.localMode then
    (mk ++ pbs_array_data.map (fun t => Call.run (subjobWords command path t)), none)
  else
    match mergeLastChunk (chunks1000 shuffled) with
    | .error e => (mk, some e)
    | .ok cs =>
      (mk ++ cs.enum.map (fun p => Call.submit (1000 * p.1) (1000 * p.1 + p.2.length - 1) p.2),
       none)

/-- Lines 47-115: the whole of `qsub(command, pbs_array_data, **kwargs)`.
`fs` is the filesystem snapshot seen by line 78, and `shuffled` stands for
`random.sample(pbs_array_data, len(pbs_array_data))` (line 89), the
uniformly random permutation drawn from the process-global generator;
theorems hypothesise `shuffled.Perm pbs_array_data`.  The result is the
list of external calls performed, paired with the raised exception, if
any. -/
def qsub (command : PyStr) (pbs_array_data : List ArgTuple) (kw : Kwargs)
    (fs : Fs) (shuffled : List ArgTuple) : List Call × Option PyErr :=
  let path := resolvePath command kw
  match createJobDir fs (path ++ "job".data) with
  | .error e => ([], some e)
  | .ok mk => qsubAfterDir command pbs_array_data kw path mk shuffled

/-- Lines 82-86 and 114: each external call is issued through `os.system`,
whose exit status the code never inspects; the runner records the status
each call returned and always proceeds to the next call. -/
def runCalls (system : Call → Int) : List Call → List (Call × Int)
  | [] => []
  | c :: rest => (c, system c) :: runCalls system rest

/-- The chunks carried by the scheduler submissions of a call trace. -/
def submittedChunks (calls : List Call) : List (List ArgTuple) :=
  calls.filterMap fun c =>
    match c with
    | .submit _ _ ch => some ch
    | _ => none

/-- The `-J` array ranges carried by the scheduler submissions of a trace. -/
def submittedRanges (calls : List Call) : List (Nat × Nat) :=
  calls.filterMap fun c =>
    match c with
    | .submit lo hi _ => some (lo, hi)
    | _ => none

/-- Consecutive ranges abut: each range ends right before the next begins. -/
def ContiguousRanges (rs : List (Nat × Nat)) : Prop :=
  List.Chain' (fun r s => r.2 + 1 = s.1) rs

/-! ## Supporting lemmas about the chunk split -/

theorem chunks1000_nil : chunks1000 ([] : List α) = [] := by
  simp [chunks1000]

theorem chunks1000_cons (a : α) (l : List α) :
    chunks1000 (a :: l) = ((a :: l).take 1000) :: chunks1000 ((a :: l).drop 1000) := by
  rw [chunks1000]

theorem chunks1000_ne_nil {l : List α} (h : l ≠ []) : chunks1000 l ≠ [] := by
  cases l with
  | nil => exact absurd rfl h
  | cons a t => rw [chunks1000_cons]; simp

theorem chunks1000_induction (P : List α → Prop) (h0 : P ([] : List α))
    (h1 : ∀ (a : α) (l : List α), P ((a :: l).drop 1000) → P (a :: l)) :
    ∀ l : List α, P l := by
  have H : ∀ (n : Nat) (l : List α), l.length ≤ n → P l := by
    intro n
    induction n with
    | zero =>
      intro l hl
      have : l = [] := List.length_eq_zero.mp (Nat.le_zero.mp hl)
      rw [this]; exact h0
    | succ n ih =>
      intro l hl
      cases l with
      | nil => exact h0
      | cons a t =>
        refine h1 a t (ih _ ?_)
        simp only [List.length_drop, List.length_cons] at *
        omega
  intro l; exact H l.length l le_rfl

theorem chunks1000_flatten (l : List α) : (chunks1000 l).flatten = l := by
  induction l using chunks1000_induction with
  | h0 => simp [chunks1000_nil]
  | h1 a t ih => rw [chunks1000_cons, List.flatten_cons, ih, List.take_append_drop]

theorem mem_chunks1000_facts {l : List α} :
    ∀ c ∈ chunks1000 l, c ≠ [] ∧ c.length ≤ 1000 := by
  induction l using chunks1000_induction with
  | h0 => simp [chunks1000_nil]
  | h1 a t ih =>
    intro c hc
    rw [chunks1000_cons] at hc
    rcases List.mem_cons.mp hc with h | h
    · subst h
      refine ⟨?_, List.length_take_le _ _⟩
      rw [show (1000 : Nat) = 999 + 1 from rfl, List.take_succ_cons]
      simp
    · exact ih c h

theorem mem_dropLast_chunks1000 {l : List α} :
    ∀ c ∈ (chunks1000 l).dropLast, c.length = 1000 := by
  induction l using chunks1000_induction with
  | h0 => simp [chunks1000_nil]
  | h1 a t ih =>
    intro c hc
    rw [chunks1000_cons] at hc
    by_cases hd : (a :: t).drop 1000 = []
    · rw [hd, chunks1000_nil] at hc
      simp at hc
    · have hne := chunks1000_ne_nil hd
      rw [List.dropLast_cons_of_ne_nil hne] at hc
      rcases List.mem_cons.mp hc with h | h
      · subst h
        have hlen : 1000 ≤ (a :: t).length := by
          by_contra hcon
          push_neg at hcon
          exact hd (List.drop_eq_nil_of_le (by omega))
        simp only [List.length_take]
        omega
      · exact ih c h

theorem chunks1000_eq_singleton {l c : List α} (h : chunks1000 l = [c]) : c = l := by
  have hj := chunks1000_flatten l
  rw [h] at hj
  simpa using hj

/-! ## Supporting lemmas about the final-chunk merge -/

theorem mergeLastChunk_concat_ne1 {cs : List (List α)} {c : List α} (h : c.length ≠ 1) :
    mergeLastChunk (cs ++ [c]) = .ok (cs ++ [c]) := by
  rcases hr : cs.reverse with _ | ⟨p, rest⟩
  · have hcs : cs = [] := by simpa using congrArg List.reverse hr
    subst hcs
    simp [mergeLastChunk, mergeLastChunkRev, Except.map, h]
  · have hcs : cs = (p :: rest).reverse := by rw [← hr, List.reverse_reverse]
    rw [hcs]
    simp [mergeLastChunk, mergeLastChunkRev, Except.map, h]

theorem mergeLastChunk_concat_len1 {cs : List (List α)} {p c : List α}
    (hc : c.length = 1) (hp : p ≠ []) :
    mergeLastChunk (cs ++ [p, c]) = .ok (cs ++ [p.dropLast, p.getLast hp :: c]) := by
  rcases List.eq_nil_or_concat p with h | ⟨q, x, hq⟩
  · exact absurd h hp
  rw [List.concat_eq_append] at hq
  subst hq
  simp [mergeLastChunk, mergeLastChunkRev, Except.map, hc, List.getLast_concat,
    List.dropLast_concat]

theorem mergeLastChunk_singleton_len1 {c : List α} (hc : c.length = 1) :
    mergeLastChunk [c] = .error .indexError := by
  simp [mergeLastChunk, mergeLastChunkRev, Except.map, hc]

/-- For at least two tuples, the merge step succeeds and yields chunks that
concatenate back to the input and all have length between 2 and 1000. -/
theorem merge_chunks_ok (l : List α) (hl : 2 ≤ l.length) :
    ∃ cs, mergeLastChunk (chunks1000 l) = .ok cs ∧
      cs.flatten = l ∧
      (∀ c ∈ cs, 2 ≤ c.length ∧ c.length ≤ 1000) := by
  have hlne : l ≠ [] := by
    intro h; rw [h] at hl; simp at hl
  rcases List.eq_nil_or_concat (chunks1000 l) with h | ⟨init, c, hdec⟩
  · exact absurd h (chunks1000_ne_nil hlne)
  rw [List.concat_eq_append] at hdec
  have hcmem : c ∈ chunks1000 l := by rw [hdec]; simp
  obtain ⟨hcne, hcle⟩ := mem_chunks1000_facts c hcmem
  have hinit : ∀ d ∈ init, d.length = 1000 := by
    intro d hd
    refine mem_dropLast_chunks1000 (l := l) d ?_
    rw [hdec, List.dropLast_concat]
    exact hd
  by_cases hc1 : c.length = 1
  · have hinitne : init ≠ [] := by
      intro h
      rw [h, List.nil_append] at hdec
      have hcl := chunks1000_eq_singleton hdec
      rw [hcl] at hc1
      omega
    rcases List.eq_nil_or_concat init with h | ⟨init2, p, hdec2⟩
    · exact absurd h hinitne
    rw [List.concat_eq_append] at hdec2
    have hplen : p.length = 1000 := hinit p (by rw [hdec2]; simp)
    have hpne : p ≠ [] := by
      intro h; rw [h] at hplen; simp at hplen
    have hfinal : chunks1000 l = init2 ++ [p, c] := by
      rw [hdec, hdec2]; simp
    have hkey : p.dropLast ++ (p.getLast hpne :: c) = p ++ c := by
      rw [show p.getLast hpne :: c = [p.getLast hpne] ++ c from rfl,
        ← List.append_assoc, List.dropLast_append_getLast hpne]
    refine ⟨init2 ++ [p.dropLast, p.getLast hpne :: c], ?_, ?_, ?_⟩
    · rw [hfinal]; exact mergeLastChunk_concat_len1 hc1 hpne
    · have hj := chunks1000_flatten l
      rw [hfinal] at hj
      rw [← hj]
      simp only [List.flatten_append, List.flatten_cons, List.flatten_nil,
        List.append_nil]
      rw [hkey]
    · intro d hd
      rcases List.mem_append.mp hd with h | h
      · have hdi : d ∈ init := by rw [hdec2]; exact List.mem_append_left _ h
        have := hinit d hdi
        omega
      · rcases List.mem_cons.mp h with h' | h'
        · subst h'
          rw [List.length_dropLast, hplen]
          omega
        · rcases List.mem_cons.mp h' with h'' | h''
          · subst h''
            simp only [List.length_cons]
            omega
          · simp at h''
  · refine ⟨chunks1000 l, ?_, chunks1000_flatten l, ?_⟩
    · rw [hdec]; exact mergeLastChunk_concat_ne1 hc1
    · intro d hd
      rw [hdec] at hd
      rcases List.mem_append.mp hd with h | h
      · have := hinit d h
        omega
      · rcases List.mem_cons.mp h with h' | h'
        · subst h'
          have h1 : 0 < d.length := List.length_pos.mpr hcne
          omega
        · simp at h'

/-- A 1001-element input splits into chunks of 1000 and 1; the merge turns
these into chunks of 999 and 2. -/
theorem merge_chunks_1001 (l : List α) (hl : l.length = 1001) :
    ∃ cs, mergeLastChunk (chunks1000 l) = .ok cs ∧ cs.map List.length = [999, 2] := by
  have h2 : chunks1000 l = [l.take 1000, l.drop 1000] := by
    cases l with
    | nil => simp at hl
    | cons a t =>
      rw [chunks1000_cons]
      congr 1
      have hlen : ((a :: t).drop 1000).length = 1 := by
        simp only [List.length_drop, hl]
      rcases List.length_eq_one.mp hlen with ⟨b, hb⟩
      rw [hb, chunks1000_cons]
      simp [chunks1000_nil]
  have hdl : (l.drop 1000).length = 1 := by simp [hl]
  have htk : (l.take 1000).length = 1000 := by simp [hl]
  have hp : l.take 1000 ≠ [] := by
    intro h; rw [h] at htk; simp at htk
  have hmerge := @mergeLastChunk_concat_len1 _ [] (l.take 1000) (l.drop 1000) hdl hp
  rw [h2]
  refine ⟨_, by simpa using hmerge, ?_⟩
  simp [List.length_dropLast, htk, hdl]

/-! ## Supporting lemmas about call traces -/

theorem runCalls_map_fst (system : Call → Int) (calls : List Call) :
    (runCalls system calls).map Prod.fst = calls := by
  induction calls with
  | nil => rfl
  | cons c rest ih => simp [runCalls, ih]

theorem runCalls_length (system : Call → Int) (calls : List Call) :
    (runCalls system calls).length = calls.length := by
  induction calls with
  | nil => rfl
  | cons c rest ih => simp [runCalls, ih]

theorem createJobDir_ok_cases {fs : Fs} {j : PyStr} {mk : List Call}
    (h : createJobDir fs j = .ok mk) : mk = [] ∨ mk = [.mkdir j] := by
  unfold createJobDir at h
  split at h
  · left
    injection h with h'
    exact h'.symm
  · unfold makedirs at h
    split at h
    · cases h
    · right
      injection h with h'
      exact h'.symm

theorem submittedChunks_append (a b : List Call) :
    submittedChunks (a ++ b) = submittedChunks a ++ submittedChunks b := by
  simp [submittedChunks]

theorem submittedRanges_append (a b : List Call) :
    submittedRanges (a ++ b) = submittedRanges a ++ submittedRanges b := by
  simp [submittedRanges]

theorem submitted_mk_empty {fs : Fs} {j : PyStr} {mk : List Call}
    (h : createJobDir fs j = .ok mk) :
    submittedChunks mk = [] ∧ submittedRanges mk = [] := by
  rcases createJobDir_ok_cases h with h' | h' <;> subst h' <;>
    simp [submittedChunks, submittedRanges]

theorem submittedChunks_enum_submit (cs : List (List ArgTuple)) :
    submittedChunks (cs.enum.map
      (fun p => Call.submit (1000 * p.1) (1000 * p.1 + p.2.length - 1) p.2)) = cs := by
  have H : ∀ l : List (Nat × List ArgTuple),
      submittedChunks (l.map
        (fun p => Call.submit (1000 * p.1) (1000 * p.1 + p.2.length - 1) p.2)) =
        l.map Prod.snd := by
    intro l
    induction l with
    | nil => rfl
    | cons a t ih =>
      simp only [List.map_cons, submittedChunks, List.filterMap_cons] at ih ⊢
      rw [ih]
  rw [H cs.enum, List.enum_map_snd]

theorem submittedRanges_enum_submit (cs : List (List ArgTuple)) :
    submittedRanges (cs.enum.map
        (fun p => Call.submit (1000 * p.1) (1000 * p.1 + p.2.length - 1) p.2)) =
      cs.enum.map (fun p => (1000 * p.1, 1000 * p.1 + p.2.length - 1)) := by
  have H : ∀ l : List (Nat × List ArgTuple),
      submittedRanges (l.map
        (fun p => Call.submit (1000 * p.1) (1000 * p.1 + p.2.length - 1) p.2)) =
        l.map (fun p => (1000 * p.1, 1000 * p.1 + p.2.length - 1)) := by
    intro l
    induction l with
    | nil => rfl
    | cons a t ih =>
      simp only [List.map_cons, submittedRanges, List.filterMap_cons] at ih ⊢
      rw [ih]
  exact H cs.enum

theorem mkdir_not_mem_enum_submit (cs : List (List ArgTuple)) (d : PyStr) :
    Call.mkdir d ∉ cs.enum.map
      (fun p => Call.submit (1000 * p.1) (1000 * p.1 + p.2.length - 1) p.2) := by
  intro h
  rcases List.mem_map.mp h with ⟨p, _, hp⟩
  cases hp

theorem pairwise_fst_lt_enum (l : List α) :
    List.Pairwise (fun p q : Nat × α => p.1 < q.1) l.enum := by
  have H : ∀ (n : Nat) (l : List α),
      List.Pairwise (fun p q : Nat × α => p.1 < q.1) (List.enumFrom n l) := by
    intro n l
    induction l generalizing n with
    | nil => simp
    | cons a t ih =>
      simp only [List.enumFrom]
      refine List.Pairwise.cons ?_ (ih (n + 1))
      intro q hq
      have := List.le_fst_of_mem_enumFrom hq
      simp only []
      omega
  exact H 0 l

theorem snd_mem_of_mem_enum {l : List α} {q : Nat × α} (h : q ∈ l.enum) : q.2 ∈ l := by
  have hm := List.mem_map_of_mem Prod.snd h
  rwa [List.enum_map_snd] at hm

theorem pathExists_of_isdir {fs : Fs} {d : PyStr} (h : isdir fs d = true) :
    pathExists fs d = true := by
  rw [isdir, decide_eq_true_iff] at h
  rw [pathExists, List.any_eq_true]
  exact ⟨(d, true), h, by simp⟩

/-! ## Unfolding lemmas for `qsub` -/

theorem qsub_eq_of_dir (command : PyStr) (pbs_array_data : List ArgTuple) (kw : Kwargs)
    (fs : Fs) (shuffled : List ArgTuple) (mk : List Call)
    (hdir : createJobDir fs (resolvePath command kw ++ "job".data) = .ok mk) :
    qsub command pbs_array_data kw fs shuffled =
      qsubAfterDir command pbs_array_data kw (resolvePath command kw) mk shuffled := by
  simp [qsub, hdir]

theorem qsubAfterDir_remote (command : PyStr) (pbs_array_data : List ArgTuple)
    (kw : Kwargs) (path : PyStr) (mk : List Call) (shuffled : List ArgTuple)
    (cs : List (List ArgTuple))
    (hloc : kw.localMode = false)
    (hok : mergeLastChunk (chunks1000 shuffled) = .ok cs) :
    qsubAfterDir command pbs_array_data kw path mk shuffled =
      (mk ++ cs.enum.map
        (fun p => Call.submit (1000 * p.1) (1000 * p.1 + p.2.length - 1) p.2), none) := by
  simp [qsubAfterDir, hloc, hok]

theorem qsubAfterDir_local (command : PyStr) (pbs_array_data : List ArgTuple)
    (kw : Kwargs) (path : PyStr) (mk : List Call) (shuffled : List ArgTuple)
    (hloc : kw.localMode = true) :
    qsubAfterDir command pbs_array_data kw path mk shuffled =
      (mk ++ pbs_array_data.map (fun t => Call.run (subjobWords command path t)), none) := by
  simp [qsubAfterDir, hloc]

/-! ## The claims -/

/-- C1: in remote mode, for every input of at least two argument tuples, the
concatenation of the chunks carried by the emitted scheduler submissions is a
permutation of the input sequence: every tuple appears in exactly one chunk,
exactly once, with multiplicity preserved. -/
theorem spec_c1 (command : PyStr) (pbs_array_data shuffled : List ArgTuple)
    (kw : Kwargs) (fs : Fs) (mk : List Call)
    (hloc : kw.localMode = false)
    (hperm : shuffled.Perm pbs_array_data)
    (hN : 2 ≤ pbs_array_data.length)
    (hdir : createJobDir fs (resolvePath command kw ++ "job".data) = .ok mk) :
    (qsub command pbs_array_data kw fs shuffled).2 = none ∧
    ((submittedChunks (qsub command pbs_array_data kw fs shuffled).1).flatten).Perm
      pbs_array_data := by
  have hlen : 2 ≤ shuffled.length := by rw [hperm.length_eq]; exact hN
  obtain ⟨cs, hok, hflat, hlens⟩ := merge_chunks_ok shuffled hlen
  have hq := (qsub_eq_of_dir command pbs_array_data kw fs shuffled mk hdir).trans
    (qsubAfterDir_remote command pbs_array_data kw (resolvePath command kw) mk
      shuffled cs hloc hok)
  rw [hq]
  refine ⟨rfl, ?_⟩
  rw [submittedChunks_append, (submitted_mk_empty hdir).1, List.nil_append,
    submittedChunks_enum_submit, hflat]
  exact hperm

/-- Witness for C1: two concrete tuples submitted remotely. -/
theorem spec_c1_witness :
    (qsub ['c'] [[Val.i 0], [Val.i 1]] {} [] [[Val.i 0], [Val.i 1]]).2 = none ∧
    ((submittedChunks
        (qsub ['c'] [[Val.i 0], [Val.i 1]] {} [] [[Val.i 0], [Val.i 1]]).1).flatten).Perm
      [[Val.i 0], [Val.i 1]] :=
  spec_c1 ['c'] [[Val.i 0], [Val.i 1]] [[Val.i 0], [Val.i 1]] {} []
    [Call.mkdir "c/job".data] rfl (List.Perm.refl _) (by decide) (by rfl)

/-- C2: in remote mode with at least two tuples, every emitted chunk has
length between 2 and 1000, the chunk lengths sum to the input length, and
an input of exactly 1001 tuples yields chunks of lengths 999 and 2. -/
theorem spec_c2 (command : PyStr) (pbs_array_data shuffled : List ArgTuple)
    (kw : Kwargs) (fs : Fs) (mk : List Call)
    (hloc : kw.localMode = false)
    (hperm : shuffled.Perm pbs_array_data)
    (hN : 2 ≤ pbs_array_data.length)
    (hdir : createJobDir fs (resolvePath command kw ++ "job".data) = .ok mk) :
    (∀ c ∈ submittedChunks (qsub command pbs_array_data kw fs shuffled).1,
      2 ≤ c.length ∧ c.length ≤ 1000) ∧
    ((submittedChunks (qsub command pbs_array_data kw fs shuffled).1).map
      List.length).sum = pbs_array_data.length ∧
    (pbs_array_data.length = 1001 →
      (submittedChunks (qsub command pbs_array_data kw fs shuffled).1).map
        List.length = [999, 2]) := by
  have hlen : 2 ≤ shuffled.length := by rw [hperm.length_eq]; exact hN
  obtain ⟨cs, hok, hflat, hlens⟩ := merge_chunks_ok shuffled hlen
  have hq := (qsub_eq_of_dir command pbs_array_data kw fs shuffled mk hdir).trans
    (qsubAfterDir_remote command pbs_array_data kw (resolvePath command kw) mk
      shuffled cs hloc hok)
  rw [hq, submittedChunks_append, (submitted_mk_empty hdir).1, List.nil_append,
    submittedChunks_enum_submit]
  refine ⟨hlens, ?_, ?_⟩
  · have hcl := congrArg List.length hflat
    rw [List.length_flatten] at hcl
    rw [hcl, hperm.length_eq]
  · intro h1001
    have hs1001 : shuffled.length = 1001 := by rw [hperm.length_eq]; exact h1001
    obtain ⟨cs2, hok2, hmap2⟩ := merge_chunks_1001 shuffled hs1001
    rw [hok] at hok2
    injection hok2 with hcs
    rw [hcs]
    exact hmap2

/-- Witness for C2: two concrete tuples submitted remotely. -/
theorem spec_c2_witness :
    (∀ c ∈ submittedChunks
        (qsub ['c'] [[Val.i 0], [Val.i 1]] {} [] [[Val.i 0], [Val.i 1]]).1,
      2 ≤ c.length ∧ c.length ≤ 1000) ∧
    ((submittedChunks
        (qsub ['c'] [[Val.i 0], [Val.i 1]] {} [] [[Val.i 0], [Val.i 1]]).1).map
      List.length).sum = ([[Val.i 0], [Val.i 1]] : List ArgTuple).length ∧
    (([[Val.i 0], [Val.i 1]] : List ArgTuple).length = 1001 →
      (submittedChunks
        (qsub ['c'] [[Val.i 0], [Val.i 1]] {} [] [[Val.i 0], [Val.i 1]]).1).map
        List.length = [999, 2]) :=
  spec_c2 ['c'] [[Val.i 0], [Val.i 1]] [[Val.i 0], [Val.i 1]] {} []
    [Call.mkdir "c/job".data] rfl (List.Perm.refl _) (by decide) (by rfl)

/-- C3 (amended): the submission for emission index i carries the array
range [1000*i, 1000*i + chunkLength - 1]; across chunks these ranges are
pairwise disjoint and strictly increasing in emission order.  They are not
always contiguous: the final-chunk merge can leave a one-index gap before
the last range. -/
theorem spec_c3 (command : PyStr) (pbs_array_data shuffled : List ArgTuple)
    (kw : Kwargs) (fs : Fs) (mk : List Call)
    (hloc : kw.localMode = false)
    (hperm : shuffled.Perm pbs_array_data)
    (hN : 2 ≤ pbs_array_data.length)
    (hdir : createJobDir fs (resolvePath command kw ++ "job".data) = .ok mk) :
    ∃ cs, mergeLastChunk (chunks1000 shuffled) = .ok cs ∧
      submittedRanges (qsub command pbs_array_data kw fs shuffled).1 =
        cs.enum.map (fun p => (1000 * p.1, 1000 * p.1 + p.2.length - 1)) ∧
      List.Pairwise (fun r s : Nat × Nat => r.2 < s.1)
        (submittedRanges (qsub command pbs_array_data kw fs shuffled).1) := by
  have hlen : 2 ≤ shuffled.length := by rw [hperm.length_eq]; exact hN
  obtain ⟨cs, hok, hflat, hlens⟩ := merge_chunks_ok shuffled hlen
  have hq := (qsub_eq_of_dir command pbs_array_data kw fs shuffled mk hdir).trans
    (qsubAfterDir_remote command pbs_array_data kw (resolvePath command kw) mk
      shuffled cs hloc hok)
  have hranges : submittedRanges (qsub command pbs_array_data kw fs shuffled).1 =
      cs.enum.map (fun p => (1000 * p.1, 1000 * p.1 + p.2.length - 1)) := by
    rw [hq]
    rw [submittedRanges_append, (submitted_mk_empty hdir).2, List.nil_append,
      submittedRanges_enum_submit]
  refine ⟨cs, hok, hranges, ?_⟩
  rw [hranges, List.pairwise_map]
  refine List.Pairwise.imp_of_mem ?_ (pairwise_fst_lt_enum cs)
  intro p q hp hq' hlt
  have hple : p.2.length ≤ 1000 := (hlens p.2 (snd_mem_of_mem_enum hp)).2
  simp only []
  omega

/-- Witness for C3 (amended): two concrete tuples submitted remotely. -/
theorem spec_c3_witness :
    ∃ cs, mergeLastChunk (chunks1000 ([[Val.i 0], [Val.i 1]] : List ArgTuple)) = .ok cs ∧
      submittedRanges
          (qsub ['c'] [[Val.i 0], [Val.i 1]] {} [] [[Val.i 0], [Val.i 1]]).1 =
        cs.enum.map (fun p => (1000 * p.1, 1000 * p.1 + p.2.length - 1)) ∧
      List.Pairwise (fun r s : Nat × Nat => r.2 < s.1)
        (submittedRanges
          (qsub ['c'] [[Val.i 0], [Val.i 1]] {} [] [[Val.i 0], [Val.i 1]]).1) :=
  spec_c3 ['c'] [[Val.i 0], [Val.i 1]] [[Val.i 0], [Val.i 1]] {} []
    [Call.mkdir "c/job".data] rfl (List.Perm.refl _) (by decide) (by rfl)

/-- C3 counterexample: with exactly 1001 tuples the two emitted ranges are
[0, 998] and [1000, 1001]; array index 999 isskipped, so the ranges are not
contiguous in emission order as the claim requires. -/
theorem spec_c3_counterexample :
    submittedRanges (qsub ['c'] (List.replicate 1001 [Val.i 0]) {} []
        (List.replicate 1001 [Val.i 0])).1 = [(0, 998), (1000, 1001)] ∧
    ¬ ContiguousRanges (submittedRanges (qsub ['c'] (List.replicate 1001 [Val.i 0]) {} []
        (List.replicate 1001 [Val.i 0])).1) := by
  obtain ⟨cs, hok, hmap⟩ :=
    merge_chunks_1001 (List.replicate 1001 ([Val.i 0] : ArgTuple))
      (by rw [List.length_replicate])
  have hdir : createJobDir ([] : Fs)
      (resolvePath ['c'] {} ++ "job".data) = .ok [Call.mkdir "c/job".data] := by rfl
  have hq := (qsub_eq_of_dir ['c'] (List.replicate 1001 [Val.i 0]) {} []
      (List.replicate 1001 [Val.i 0]) [Call.mkdir "c/job".data] hdir).trans
    (qsubAfterDir_remote ['c'] (List.replicate 1001 [Val.i 0]) {}
      (resolvePath ['c'] {}) [Call.mkdir "c/job".data]
      (List.replicate 1001 [Val.i 0]) cs rfl hok)
  rcases cs with _ | ⟨c0, cs'⟩
  · simp at hmap
  rcases cs' with _ | ⟨c1, rest⟩
  · simp at hmap
  simp only [List.map_cons, List.cons.injEq, List.map_eq_nil_iff] at hmap
  obtain ⟨h0, h1, hrest⟩ := hmap
  subst hrest
  have hranges : submittedRanges (qsub ['c'] (List.replicate 1001 [Val.i 0]) {} []
      (List.replicate 1001 [Val.i 0])).1 = [(0, 998), (1000, 1001)] := by
    rw [hq, submittedRanges_append, (submitted_mk_empty hdir).2, List.nil_append,
      submittedRanges_enum_submit]
    simp [List.enum, List.enumFrom, h0, h1]
  refine ⟨hranges, ?_⟩
  rw [hranges]
  simp [ContiguousRanges]

/-- C4: for each emitted chunk and each runtime index j inside its emitted
range, the generated script's lookup j - 1000*i lands in bounds of the
embedded chunk, and the command line run is the user command, the tuple's
stringified values, then the output path. -/
theorem spec_c4 (command : PyStr) (pbs_array_data shuffled : List ArgTuple)
    (kw : Kwargs) (fs : Fs) (mk : List Call)
    (hloc : kw.localMode = false)
    (hperm : shuffled.Perm pbs_array_data)
    (hN : 2 ≤ pbs_array_data.length)
    (hdir : createJobDir fs (resolvePath command kw ++ "job".data) = .ok mk) :
    ∀ lo hi ch, Call.submit lo hi ch ∈ (qsub command pbs_array_data kw fs shuffled).1 →
      ∃ i, lo = 1000 * i ∧ hi = 1000 * i + ch.length - 1 ∧
        ∀ j, lo ≤ j → j ≤ hi →
          j - 1000 * i < ch.length ∧
          ∃ t, ch.get? (j - 1000 * i) = some t ∧
            scriptRun command (resolvePath command kw) i ch j =
              some (subjobWords command (resolvePath command kw) t) := by
  have hlen : 2 ≤ shuffled.length := by rw [hperm.length_eq]; exact hN
  obtain ⟨cs, hok, hflat, hlens⟩ := merge_chunks_ok shuffled hlen
  have hq := (qsub_eq_of_dir command pbs_array_data kw fs shuffled mk hdir).trans
    (qsubAfterDir_remote command pbs_array_data kw (resolvePath command kw) mk
      shuffled cs hloc hok)
  rw [hq]
  intro lo hi ch hmem
  rcases List.mem_append.mp hmem with h | h
  · rcases createJobDir_ok_cases hdir with h' | h' <;> subst h' <;> simp at h
  · rcases List.mem_map.mp h with ⟨p, hpmem, hpeq⟩
    injection hpeq with h1 h2 h3
    subst h1
    subst h2
    subst h3
    refine ⟨p.1, rfl, rfl, ?_⟩
    intro j hjlo hjhi
    have hchlen : 2 ≤ p.2.length := (hlens p.2 (snd_mem_of_mem_enum hpmem)).1
    have hidx : j - 1000 * p.1 < p.2.length := by omega
    refine ⟨hidx, p.2.get ⟨j - 1000 * p.1, hidx⟩, List.get?_eq_get hidx, ?_⟩
    simp only [scriptRun, scriptLookup, pyGet]
    have h0 : (0 : Int) ≤ (j : Int) - 1000 * (p.1 : Nat) := by omega
    rw [if_pos h0]
    have htn : ((j : Int) - 1000 * (p.1 : Nat)).toNat = j - 1000 * p.1 := by omega
    rw [htn, List.get?_eq_get hidx]
    rfl

/-- Witness for C4: on the concrete two-tuple chunk, at runtime index 1 the
lookup 1 - 1000*0 is in bounds and the script runs the command with the
tuple at that position and the output path. -/
theorem spec_c4_witness :
    (1 : Nat) - 1000 * 0 < ([[Val.i 0], [Val.i 1]] : List ArgTuple).length ∧
    ([[Val.i 0], [Val.i 1]] : List ArgTuple).get? (1 - 1000 * 0) = some [Val.i 1] ∧
    scriptRun ['c'] (resolvePath ['c'] {}) 0 [[Val.i 0], [Val.i 1]] 1 =
      some (subjobWords ['c'] (resolvePath ['c'] {}) [Val.i 1]) := by
  have h := spec_c4 ['c'] [[Val.i 0], [Val.i 1]] [[Val.i 0], [Val.i 1]] {} []
    [Call.mkdir "c/job".data] rfl (List.Perm.refl _) (by decide) (by rfl)
  have hchunks : chunks1000 ([[Val.i 0], [Val.i 1]] : List ArgTuple) =
      [[[Val.i 0], [Val.i 1]]] := by
    rw [chunks1000_cons, List.take_of_length_le (by simp),
      List.drop_eq_nil_of_le (by simp), chunks1000_nil]
  have hmerge : mergeLastChunk (chunks1000 ([[Val.i 0], [Val.i 1]] : List ArgTuple)) =
      .ok [[[Val.i 0], [Val.i 1]]] := by
    rw [hchunks]
    simpa using @mergeLastChunk_concat_ne1 ArgTuple [] [[Val.i 0], [Val.i 1]] (by simp)
  have hq := (qsub_eq_of_dir ['c'] [[Val.i 0], [Val.i 1]] {} [] [[Val.i 0], [Val.i 1]]
      [Call.mkdir "c/job".data] (by rfl)).trans
    (qsubAfterDir_remote ['c'] [[Val.i 0], [Val.i 1]] {} (resolvePath ['c'] {})
      [Call.mkdir "c/job".data] [[Val.i 0], [Val.i 1]] [[[Val.i 0], [Val.i 1]]]
      rfl hmerge)
  have hmem : Call.submit 0 1 [[Val.i 0], [Val.i 1]] ∈
      (qsub ['c'] [[Val.i 0], [Val.i 1]] {} [] [[Val.i 0], [Val.i 1]]).1 := by
    rw [hq]
    simp [List.enum, List.enumFrom]
  obtain ⟨i, hi0, _, hj⟩ := h 0 1 [[Val.i 0], [Val.i 1]] hmem
  have hieq : i = 0 := by omega
  subst hieq
  obtain ⟨hidx, t, ht, hrun⟩ := hj 1 (by omega) (by norm_num)
  have hrfl : ([[Val.i 0], [Val.i 1]] : List ArgTuple).get? (1 - 1000 * 0) =
      some [Val.i 1] := rfl
  rw [hrfl] at ht
  injection ht with ht'
  subst ht'
  exact ⟨hidx, hrfl, hrun⟩


/-- C5: in local mode the command is invoked exactly once per input tuple,
in the original (unshuffled) input order, each invocation being the command,
the tuple's stringified values, then the output path; the shuffled sequence
is never consulted and no chunking occurs. -/
theorem spec_c5 (command : PyStr) (pbs_array_data : List ArgTuple) (kw : Kwargs)
    (fs : Fs) (mk : List Call) (shuffled : List ArgTuple)
    (hloc : kw.localMode = true)
    (hdir : createJobDir fs (resolvePath command kw ++ "job".data) = .ok mk) :
    qsub command pbs_array_data kw fs shuffled =
      (mk ++ pbs_array_data.map
        (fun t => Call.run (subjobWords command (resolvePath command kw) t)), none) := by
  rw [qsub_eq_of_dir command pbs_array_data kw fs shuffled mk hdir,
    qsubAfterDir_local command pbs_array_data kw (resolvePath command kw) mk
      shuffled hloc]

/-- Witness for C5: the spec's concrete example, tuples ("a",1) and ("b",2)
with command "echo": exactly two invocations, in input order, each ending in
the output path. -/
theorem spec_c5_witness :
    qsub "echo".data [[Val.s "a".data, Val.i 1], [Val.s "b".data, Val.i 2]]
        { path := some "/p".data, localMode := true } [] [] =
      ([Call.mkdir "/p/job".data,
        Call.run ["echo".data, "a".data, "1".data, "/p/".data],
        Call.run ["echo".data, "b".data, "2".data, "/p/".data]], none) :=
  (spec_c5 "echo".data [[Val.s "a".data, Val.i 1], [Val.s "b".data, Val.i 2]]
    { path := some "/p".data, localMode := true } [] [Call.mkdir "/p/job".data] []
    rfl (by rfl)).trans (by rfl)

/-- C6 (amended): exactly one argument tuple in remote mode makes the
chunk-merge step raise an uncaught IndexError (Python evaluates
`pbs_array_data_chunks[-2]` on a one-chunk list), before any scheduler
submission is emitted; nothing flags the input as unsupported and no
explicit validation error is produced. -/
theorem spec_c6 (command : PyStr) (t : ArgTuple) (kw : Kwargs) (fs : Fs)
    (mk : List Call) (shuffled : List ArgTuple)
    (hloc : kw.localMode = false)
    (hperm : shuffled.Perm [t])
    (hdir : createJobDir fs (resolvePath command kw ++ "job".data) = .ok mk) :
    qsub command [t] kw fs shuffled = (mk, some PyErr.indexError) ∧
    ∀ lo hi ch, Call.submit lo hi ch ∉ (qsub command [t] kw fs shuffled).1 := by
  have hsh : shuffled = [t] := List.perm_singleton.mp hperm
  subst hsh
  have hchunks : chunks1000 [t] = [[t]] := by
    rw [chunks1000_cons, List.take_of_length_le (by simp),
      List.drop_eq_nil_of_le (by simp), chunks1000_nil]
  have hmerge : mergeLastChunk (chunks1000 [t]) = .error .indexError := by
    rw [hchunks]
    exact mergeLastChunk_singleton_len1 (by simp)
  have hq : qsub command [t] kw fs [t] = (mk, some PyErr.indexError) := by
    rw [qsub_eq_of_dir command [t] kw fs [t] mk hdir]
    simp [qsubAfterDir, hloc, hmerge]
  refine ⟨hq, ?_⟩
  intro lo hi ch hmem
  rw [hq] at hmem
  rcases createJobDir_ok_cases hdir with h' | h' <;> subst h' <;> simp at hmem

/-- Witness for C6 (amended) at a concrete single tuple. -/
theorem spec_c6_witness :
    qsub ['c'] [[Val.i 0]] {} [] [[Val.i 0]] =
      ([Call.mkdir "c/job".data], some PyErr.indexError) ∧
    ∀ lo hi ch, Call.submit lo hi ch ∉ (qsub ['c'] [[Val.i 0]] {} [] [[Val.i 0]]).1 :=
  spec_c6 ['c'] [Val.i 0] {} [] [Call.mkdir "c/job".data] [[Val.i 0]]
    rfl (List.Perm.refl _) (by rfl)

/-- C6 counterexample: the raised exception on a concrete single-tuple
input is the IndexError, not the clear validation error the claim
requires. -/
theorem spec_c6_counterexample :
    (qsub ['c'] [[Val.i 0]] {} [] [[Val.i 0]]).2 = some PyErr.indexError ∧
    (qsub ['c'] [[Val.i 0]] {} [] [[Val.i 0]]).2 ≠ some PyErr.validationError := by
  have hchunks : chunks1000 ([[Val.i 0]] : List ArgTuple) = [[[Val.i 0]]] := by
    rw [chunks1000_cons, List.take_of_length_le (by simp),
      List.drop_eq_nil_of_le (by simp), chunks1000_nil]
  have hmerge : mergeLastChunk (chunks1000 ([[Val.i 0]] : List ArgTuple)) =
      .error .indexError := by
    rw [hchunks]
    exact mergeLastChunk_singleton_len1 (by simp)
  have h2 : (qsub ['c'] [[Val.i 0]] {} [] [[Val.i 0]]).2 = some PyErr.indexError := by
    rw [qsub_eq_of_dir ['c'] [[Val.i 0]] {} [] [[Val.i 0]]
      [Call.mkdir "c/job".data] (by rfl)]
    simp [qsubAfterDir, hmerge]
  exact ⟨h2, by rw [h2]; simp⟩

/-- C7 (amended): for every non-empty path without a trailing separator the
submitter appends exactly one separator before directory creation and
before composing the final command argument (both read `resolvePath`); a
path already ending in the separator is used unchanged; the normalization
is idempotent.  The empty path is the exception: it is left unchanged. -/
theorem spec_c7 (p command : PyStr) (kw : Kwargs) (hkw : kw.path = some p) :
    (p ≠ [] → p.getLast? ≠ some osSep → resolvePath command kw = p ++ [osSep]) ∧
    (p.getLast? = some osSep → resolvePath command kw = p) ∧
    ensureTrailingSep (ensureTrailingSep p) = ensureTrailingSep p := by
  have hres : resolvePath command kw = ensureTrailingSep p := by
    simp [resolvePath, hkw]
  refine ⟨?_, ?_, ?_⟩
  · intro h1 h2
    rw [hres]
    simp only [ensureTrailingSep]
    rw [if_pos ⟨h1, h2⟩]
  · intro h
    rw [hres]
    simp [ensureTrailingSep, h]
  · by_cases h1 : p = []
    · subst h1
      simp [ensureTrailingSep]
    · by_cases h2 : p.getLast? = some osSep
      · simp [ensureTrailingSep, h1, h2]
      · have hx : ensureTrailingSep p = p ++ [osSep] := by
          simp only [ensureTrailingSep]
          rw [if_pos ⟨h1, h2⟩]
        rw [hx]
        simp [ensureTrailingSep, List.getLast?_concat]

/-- Witness for C7 (amended): the path "a" receives exactly one separator,
and the normalization is idempotent on it. -/
theorem spec_c7_witness :
    resolvePath ['c'] { path := some ['a'] } = ['a'] ++ [osSep] ∧
    ensureTrailingSep (ensureTrailingSep ['a']) = ensureTrailingSep ['a'] := by
  have h := spec_c7 ['a'] ['c'] { path := some ['a'] } rfl
  exact ⟨h.1 (by decide) (by decide), h.2.2⟩

/-- C7 counterexample: the empty path has no trailing separator, yet the
normalization appends nothing to it, so the claimed universal rule fails at
path = "". -/
theorem spec_c7_counterexample :
    ([] : PyStr).getLast? ≠ some osSep ∧ ensureTrailingSep [] = [] ∧
    ensureTrailingSep [] ≠ [] ++ [osSep] := by
  refine ⟨by simp, by simp [ensureTrailingSep], by simp [ensureTrailingSep]⟩

/-- C8: when the <path>job output directory already exists as a directory,
a repeated submission raises no error: directory creation is skipped (no
mkdir call is made) and the scheduler submissions are still emitted. -/
theorem spec_c8 (command : PyStr) (pbs_array_data shuffled : List ArgTuple)
    (kw : Kwargs) (fs : Fs)
    (hdir : isdir fs (resolvePath command kw ++ "job".data) = true)
    (hloc : kw.localMode = false)
    (hN : 2 ≤ shuffled.length) :
    (qsub command pbs_array_data kw fs shuffled).2 = none ∧
    (∀ d, Call.mkdir d ∉ (qsub command pbs_array_data kw fs shuffled).1) ∧
    submittedChunks (qsub command pbs_array_data kw fs shuffled).1 ≠ [] := by
  have hdir2 : createJobDir fs (resolvePath command kw ++ "job".data) = .ok [] := by
    simp [createJobDir, hdir]
  obtain ⟨cs, hok, hflat, hlens⟩ := merge_chunks_ok shuffled hN
  have hq := (qsub_eq_of_dir command pbs_array_data kw fs shuffled [] hdir2).trans
    (qsubAfterDir_remote command pbs_array_data kw (resolvePath command kw) []
      shuffled cs hloc hok)
  rw [hq]
  refine ⟨rfl, ?_, ?_⟩
  · intro d hmem
    rw [List.nil_append] at hmem
    exact mkdir_not_mem_enum_submit cs d hmem
  · rw [List.nil_append, submittedChunks_enum_submit]
    intro hcs
    rw [hcs] at hflat
    simp only [List.flatten_nil] at hflat
    rw [← hflat] at hN
    simp at hN

/-- Witness for C8: re-submission with the job directory already present. -/
theorem spec_c8_witness :
    (qsub ['c'] [[Val.i 0], [Val.i 1]] {} [("c/job".data, true)]
      [[Val.i 0], [Val.i 1]]).2 = none ∧
    (∀ d, Call.mkdir d ∉ (qsub ['c'] [[Val.i 0], [Val.i 1]] {} [("c/job".data, true)]
      [[Val.i 0], [Val.i 1]]).1) ∧
    submittedChunks (qsub ['c'] [[Val.i 0], [Val.i 1]] {} [("c/job".data, true)]
      [[Val.i 0], [Val.i 1]]).1 ≠ [] :=
  spec_c8 ['c'] [[Val.i 0], [Val.i 1]] [[Val.i 0], [Val.i 1]] {}
    [("c/job".data, true)] (by decide) rfl (by decide)

/-- C9: the exit status of each scheduler invocation is ignored: under any
two status oracles the same calls are issued, each emitted call is issued
exactly once, and the run returns normally after the last submission. -/
theorem spec_c9 (system system2 : Call → Int) (command : PyStr)
    (pbs_array_data shuffled : List ArgTuple) (kw : Kwargs) (fs : Fs) (mk : List Call)
    (hloc : kw.localMode = false)
    (hperm : shuffled.Perm pbs_array_data)
    (hN : 2 ≤ pbs_array_data.length)
    (hdir : createJobDir fs (resolvePath command kw ++ "job".data) = .ok mk) :
    (qsub command pbs_array_data kw fs shuffled).2 = none ∧
    (runCalls system (qsub command pbs_array_data kw fs shuffled).1).map Prod.fst =
      (qsub command pbs_array_data kw fs shuffled).1 ∧
    (runCalls system (qsub command pbs_array_data kw fs shuffled).1).map Prod.fst =
      (runCalls system2 (qsub command pbs_array_data kw fs shuffled).1).map Prod.fst ∧
    (runCalls system (qsub command pbs_array_data kw fs shuffled).1).length =
      (qsub command pbs_array_data kw fs shuffled).1.length := by
  have hlen : 2 ≤ shuffled.length := by rw [hperm.length_eq]; exact hN
  obtain ⟨cs, hok, hflat, hlens⟩ := merge_chunks_ok shuffled hlen
  have hq := (qsub_eq_of_dir command pbs_array_data kw fs shuffled mk hdir).trans
    (qsubAfterDir_remote command pbs_array_data kw (resolvePath command kw) mk
      shuffled cs hloc hok)
  rw [hq]
  refine ⟨rfl, runCalls_map_fst _ _, ?_, ?_⟩
  · rw [runCalls_map_fst, runCalls_map_fst]
  · rw [runCalls_length]

/-- Witness for C9: two different status oracles on a concrete remote
submission. -/
theorem spec_c9_witness :
    (qsub ['c'] [[Val.i 0], [Val.i 1]] {} [] [[Val.i 0], [Val.i 1]]).2 = none ∧
    (runCalls (fun _ => 0)
        (qsub ['c'] [[Val.i 0], [Val.i 1]] {} [] [[Val.i 0], [Val.i 1]]).1).map Prod.fst =
      (qsub ['c'] [[Val.i 0], [Val.i 1]] {} [] [[Val.i 0], [Val.i 1]]).1 ∧
    (runCalls (fun _ => 0)
        (qsub ['c'] [[Val.i 0], [Val.i 1]] {} [] [[Val.i 0], [Val.i 1]]).1).map Prod.fst =
      (runCalls (fun _ => 1)
        (qsub ['c'] [[Val.i 0], [Val.i 1]] {} [] [[Val.i 0], [Val.i 1]]).1).map Prod.fst ∧
    (runCalls (fun _ => 0)
        (qsub ['c'] [[Val.i 0], [Val.i 1]] {} [] [[Val.i 0], [Val.i 1]]).1).length =
      (qsub ['c'] [[Val.i 0], [Val.i 1]] {} [] [[Val.i 0], [Val.i 1]]).1.length :=
  spec_c9 (fun _ => 0) (fun _ => 1) ['c'] [[Val.i 0], [Val.i 1]] [[Val.i 0], [Val.i 1]]
    {} [] [Call.mkdir "c/job".data] rfl (List.Perm.refl _) (by decide) (by rfl)

/-- C10: supplying the explicit keyword argument path = "" appends no
separator: the resolved path is empty, the directory created is the
relative "job", and the final command-line argument of every subjob is the
empty string. -/
theorem spec_c10 (command : PyStr) (pbs_array_data : List ArgTuple) (kw : Kwargs)
    (fs : Fs) (shuffled : List ArgTuple)
    (hkw : kw.path = some [])
    (hloc : kw.localMode = true)
    (hfs : pathExists fs "job".data = false) :
    resolvePath command kw = [] ∧
    qsub command pbs_array_data kw fs shuffled =
      (Call.mkdir "job".data ::
        pbs_array_data.map (fun t => Call.run (subjobWords command [] t)), none) ∧
    ∀ t : ArgTuple, (subjobWords command [] t).getLast? = some [] := by
  have hres : resolvePath command kw = [] := by
    simp [resolvePath, hkw, ensureTrailingSep]
  have hisd : isdir fs "job".data = false := by
    cases hb : isdir fs "job".data
    · rfl
    · have hpe := pathExists_of_isdir hb
      rw [hfs] at hpe
      exact absurd hpe (by simp)
  have hdir : createJobDir fs (resolvePath command kw ++ "job".data) =
      .ok [Call.mkdir "job".data] := by
    rw [hres, List.nil_append]
    simp [createJobDir, hisd, makedirs, hfs]
  refine ⟨hres, ?_, ?_⟩
  · rw [qsub_eq_of_dir command pbs_array_data kw fs shuffled
        [Call.mkdir "job".data] hdir,
      qsubAfterDir_local command pbs_array_data kw (resolvePath command kw)
        [Call.mkdir "job".data] shuffled hloc, hres]
    rfl
  · intro t
    show (command :: (t.map Val.str ++ [([] : PyStr)])).getLast? = some []
    rw [← List.cons_append, List.getLast?_concat]

/-- Witness for C10: path = "" on a concrete local-mode input. -/
theorem spec_c10_witness :
    resolvePath ['c'] { path := some [], localMode := true } = [] ∧
    qsub ['c'] [[Val.i 5]] { path := some [], localMode := true } [] [] =
      (Call.mkdir "job".data ::
        ([[Val.i 5]] : List ArgTuple).map (fun t => Call.run (subjobWords ['c'] [] t)),
        none) ∧
    ∀ t : ArgTuple, (subjobWords ['c'] [] t).getLast? = some [] :=
  spec_c10 ['c'] [[Val.i 5]] { path := some [], localMode := true } [] []
    rfl rfl (by rfl)

end QsubPy
